import Mathlib

/-!
Verification development for a small expression-compiler front end
(tokeniser, shunting-yard reducer, and two semantic-validation passes).
The Lean definitions below are shallow embeddings of the Rust sources:
`src/robuffer.rs`, `src/utils.rs`, `src/tokeniser.rs`, `src/expr_parser.rs`
and `src/sema.rs`.  Machine integers are modelled as `Nat`/`Int` (i64
wraparound made explicit), byte strings as `List Nat`, and panics as
`Option`/`Except` failure values.
-/

/-- Token kinds, from `tokeniser.rs` (`enum TokenKind`).  `Num` carries an
i64 value (modelled as `Int`, wrapped at each accumulation step), `Ident`
carries the identifier bytes. -/
inductive TokenKind where
  | Invalid (b : Nat)
  | Num (n : Int)
  | Ident (bs : List Nat)
  | Add
  | Sub
  | Mul
  | Div
  | LPar
  | RPar
  | Mod
  | And
  | Xor
  | Or
  | Assign
  | End
  deriving DecidableEq

/-- A positioned token, from `tokeniser.rs` (`struct Token`). -/
structure Token where
  kind : TokenKind
  line : Nat
  column : Nat
  deriving DecidableEq

/-- `Token::new(kind, col, ln)` — note the argument order of the source:
column first, then line. -/
def Token.new (kind : TokenKind) (col ln : Nat) : Token :=
  { kind := kind, line := ln, column := col }

/-- `Token::is_operand`. -/
def Token.is_operand (t : Token) : Bool :=
  match t.kind with
  | .Num _ | .Ident _ => true
  | _ => false

/-- `Token::is_paren`. -/
def Token.is_paren (t : Token) : Bool :=
  match t.kind with
  | .LPar | .RPar => true
  | _ => false

/-- `Token::is_operator`.  Note that `Assign` counts as an operator. -/
def Token.is_operator (t : Token) : Bool :=
  match t.kind with
  | .Add | .Sub | .Mul | .Div | .And | .Mod | .Xor | .Or | .Assign => true
  | _ => false

/-- `Token::precedence`.  The source hits `unreachable!()` (a panic) on
`Invalid`, `LPar`, `RPar` and `End`; the panic is modelled as `none`. -/
def Token.precedence (t : Token) : Option Int :=
  match t.kind with
  | .Assign => some (-1)
  | .Num _ | .Ident _ => some 0
  | .Or => some 1
  | .Xor => some 2
  | .And => some 3
  | .Sub => some 5
  | .Add => some 5
  | .Div => some 6
  | .Mul => some 6
  | .Mod => some 6
  | _ => none

/-- `utils::is_digit`. -/
def is_digit (c : Nat) : Bool := 48 ≤ c && c ≤ 57

/-- `utils::is_alnum`. -/
def is_alnum (c : Nat) : Bool :=
  is_digit c || (97 ≤ c && c ≤ 122) || (65 ≤ c && c ≤ 90)

/-- Read-only input buffer, from `robuffer.rs` (`struct ROBuffer`). -/
structure ROBuffer where
  contents : List Nat
  offset : Nat
  deriving DecidableEq

/-- The byte-collecting loop of `ROBuffer::new`: every character's code
point must be at most 0x7F, otherwise the constructor returns `Err` at the
first offending character. -/
def asciiBytes : List Nat → Option (List Nat)
  | [] => some []
  | c :: rest =>
    if 127 < c then none
    else (asciiBytes rest).map (fun bs => c :: bs)

/-- `ROBuffer::new`: succeeds with the input bytes and offset 0 exactly
when every character is 7-bit ASCII. -/
def ROBuffer.new (s : List Nat) : Option ROBuffer :=
  (asciiBytes s).map (fun bs => { contents := bs, offset := 0 })

/-- `ROBuffer::next`: yields the byte at the current offset and advances,
or `none` at end of input. -/
def ROBuffer.next (b : ROBuffer) : Option Nat × ROBuffer :=
  if b.contents.length ≤ b.offset then (none, b)
  else (some (b.contents.getD b.offset 0), { b with offset := b.offset + 1 })

/-- `ROBuffer::rewind`: steps the offset back by one.  The source panics
when the offset is already 0; every call site below invokes `rewind` only
immediately after a successful `next`, so the offset is positive there and
the panic branch is unreachable. -/
def ROBuffer.rewind (b : ROBuffer) : ROBuffer :=
  { b with offset := b.offset - 1 }

/-- Tokeniser state, from `tokeniser.rs` (`struct Tokeniser`). -/
structure Tokeniser where
  buf : ROBuffer
  line : Nat
  column : Nat
  deriving DecidableEq

/-- `Tokeniser::new` calls `ROBuffer::new(expr).unwrap()`: the `unwrap`
panics (modelled as `none`) whenever buffer construction fails, i.e. on
any non-ASCII input; the encoding failure is never surfaced as an error
value. -/
def Tokeniser.new (s : List Nat) : Option Tokeniser :=
  (ROBuffer.new s).map (fun b => { buf := b, line := 1, column := 1 })

/-- i64 two's-complement wraparound, making the silent overflow of the
digit-accumulation loop in `Tokeniser::get_num` explicit. -/
def wrap64 (x : Int) : Int := (x + 2 ^ 63) % 2 ^ 64 - 2 ^ 63

/-- The digit loop of `Tokeniser::get_num`, fuelled by the number of
remaining input bytes (each iteration consumes one byte, so any fuel of at
least `remaining + 1` is enough; the wrappers below always supply that).
Returns the updated tokeniser state and the accumulated value. -/
def get_numAux : Nat → Tokeniser → Int → Option (Tokeniser × Int)
  | 0, _, _ => none
  | fuel + 1, t, n =>
    match t.buf.next with
    | (none, b2) => some ({ t with buf := b2 }, n)
    | (some ch, b2) =>
      if is_digit ch then
        get_numAux fuel
          { t with buf := b2, column := t.column + 1 }
          (wrap64 (wrap64 (n * 10) + ((ch : Int) - 48)))
      else
        some ({ t with buf := b2.rewind, column := t.column - 1 }, n)

/-- `Tokeniser::get_num`: records the starting position, runs the digit
loop, and builds a `Num` token. -/
def get_num (t : Tokeniser) : Option (Token × Tokeniser) :=
  (get_numAux (t.buf.contents.length - t.buf.offset + 1) t 0).map
    (fun p => (Token.new (TokenKind.Num p.2) t.column t.line, p.1))

/-- The alphanumeric loop of `Tokeniser::get_ident`, fuelled like
`get_numAux`. -/
def get_identAux : Nat → Tokeniser → List Nat → Option (Tokeniser × List Nat)
  | 0, _, _ => none
  | fuel + 1, t, bvec =>
    match t.buf.next with
    | (none, b2) => some ({ t with buf := b2 }, bvec)
    | (some ch, b2) =>
      if is_alnum ch then
        get_identAux fuel
          { t with buf := b2, column := t.column + 1 }
          (bvec ++ [ch])
      else
        some ({ t with buf := b2.rewind, column := t.column - 1 }, bvec)

/-- `Tokeniser::get_ident`. -/
def get_ident (t : Tokeniser) : Option (Token × Tokeniser) :=
  (get_identAux (t.buf.contents.length - t.buf.offset + 1) t []).map
    (fun p => (Token.new (TokenKind.Ident p.2) t.column t.line, p.1))

/-- The single-character dispatch of `Tokeniser::tokenise`. -/
def charKind (ch : Nat) : TokenKind :=
  match ch with
  | 61 => .Assign
  | 43 => .Add
  | 45 => .Sub
  | 42 => .Mul
  | 47 => .Div
  | 40 => .LPar
  | 41 => .RPar
  | 37 => .Mod
  | 124 => .Or
  | 94 => .Xor
  | 38 => .And
  | c => .Invalid c

/-- The whitespace-skipping loop of `Tokeniser::tokenise`, fuelled by the
number of remaining bytes (each loop iteration consumes one byte).  After
any produced token the source executes `self.column += 1` before
returning, which is reproduced in every branch. -/
def tokeniseAux : Nat → Tokeniser → Option (Token × Tokeniser)
  | 0, _ => none
  | fuel + 1, t =>
    match t.buf.next with
    | (none, b2) => some (Token.new TokenKind.End t.column t.line, { t with buf := b2 })
    | (some ch, b2) =>
      if (97 ≤ ch && ch ≤ 122) || (65 ≤ ch && ch ≤ 90) then
        (get_ident { t with buf := b2.rewind }).map
          (fun p => (p.1, { p.2 with column := p.2.column + 1 }))
      else if 48 ≤ ch && ch ≤ 57 then
        (get_num { t with buf := b2.rewind }).map
          (fun p => (p.1, { p.2 with column := p.2.column + 1 }))
      else if ch = 32 || ch = 9 || ch = 13 then
        tokeniseAux fuel { t with buf := b2, column := t.column + 1 }
      else if ch = 10 then
        tokeniseAux fuel { t with buf := b2, column := 1, line := t.line + 1 }
      else
        some (Token.new (charKind ch) t.column t.line,
              { t with buf := b2, column := t.column + 1 })

/-- `Tokeniser::tokenise`, with sufficient fuel for its input. -/
def tokenise (t : Tokeniser) : Option (Token × Tokeniser) :=
  tokeniseAux (t.buf.contents.length - t.buf.offset + 1) t

/-- The collection loop of `Tokeniser::collect`, fuelled by the number of
remaining bytes plus one (every non-`End` token consumes at least one
byte).  `none` models both the `Err(())` return on an `Invalid` token and
fuel exhaustion (never reached with the fuel supplied by `collect`). -/
def collectAux : Nat → Tokeniser → List Token → Option (List Token)
  | 0, _, _ => none
  | fuel + 1, t, acc =>
    match tokenise t with
    | none => none
    | some (tok, t2) =>
      match tok.kind with
      | .Invalid _ => none
      | .End => some acc
      | _ => collectAux fuel t2 (acc ++ [tok])

/-- End-to-end tokenisation of an input byte string: `Tokeniser::new`
followed by `Tokeniser::collect`. -/
def collect (s : List Nat) : Option (List Token) :=
  match Tokeniser.new s with
  | none => none
  | some t => collectAux (s.length + 1) t []

/-- Failure modes of `to_rpn` (`expr_parser.rs`): the explicit
`panic!("Mismatched parenthesis ...")` on an unmatched right parenthesis,
and the `unreachable!()` panic inside `Token::precedence` when
`add_operator` compares precedences of tokens that have none. -/
inductive RpnErr where
  | mismatchedParen (line col : Nat)
  | precPanic
  deriving DecidableEq

instance : DecidableEq (Except RpnErr (List Token)) := fun x y =>
  match x, y with
  | .error a, .error b =>
    if h : a = b then isTrue (by rw [h]) else isFalse (by intro hc; cases hc; exact h rfl)
  | .ok a, .ok b =>
    if h : a = b then isTrue (by rw [h]) else isFalse (by intro hc; cases hc; exact h rfl)
  | .error _, .ok _ => isFalse (by intro hc; cases hc)
  | .ok _, .error _ => isFalse (by intro hc; cases hc)

/-- `expr_parser::add_operator`.  The operator stack is a list whose head
is the stack top (the last element of the Rust `Vec`).  The output list
keeps the Rust order (appended at the end).  `none` models the panic that
the source would hit inside `Token::precedence`. -/
def add_operator : List Token → List Token → Token → Option (List Token × List Token)
  | [], out, op => some ([op], out)
  | top :: rest, out, op =>
    if top.kind = TokenKind.LPar then
      some (op :: top :: rest, out)
    else
      match top.precedence, op.precedence with
      | some pt, some po =>
        if pt < po then some (op :: top :: rest, out)
        else add_operator rest (out ++ [top]) op
      | _, _ => none

/-- The inner `while` loop of `to_rpn`'s `RPar` branch: pop operators to
the output until a `LPar` is found (discarded); `none` when the stack is
exhausted first, in which case the source panics with
`MismatchedParenError`. -/
def popUntilLPar : List Token → List Token → Option (List Token × List Token)
  | [], _ => none
  | top :: rest, out =>
    if top.kind = TokenKind.LPar then some (rest, out)
    else popUntilLPar rest (out ++ [top])

/-- The main loop of `expr_parser::to_rpn`, over the remaining input with
an explicit operator stack and output. -/
def to_rpnAux : List Token → List Token → List Token → Except RpnErr (List Token)
  | [], stk, out => .ok (out ++ stk)
  | e :: rest, stk, out =>
    match e.kind with
    | .Num _ | .Ident _ => to_rpnAux rest stk (out ++ [e])
    | .LPar => to_rpnAux rest (e :: stk) out
    | .RPar =>
      match popUntilLPar stk out with
      | some (stk2, out2) => to_rpnAux rest stk2 out2
      | none => .error (.mismatchedParen e.line e.column)
    | _ =>
      match add_operator stk out e with
      | some (stk2, out2) => to_rpnAux rest stk2 out2
      | none => .error .precPanic

/-- `expr_parser::to_rpn`. -/
def to_rpn (expr : List Token) : Except RpnErr (List Token) :=
  to_rpnAux expr [] []

/-- Outcome of the infix semantic pass (`sema::sema_infix`): the source
prints a diagnostic and returns `false`; the constructors record which
diagnostic was printed and the position cited. -/
inductive InfixCheck where
  | ok
  | parenErr (ch : Char) (line col : Nat)
  | expectedOperator (line col : Nat)
  | expectedOperand (line col : Nat)
  deriving DecidableEq

/-- The paren-counting loop of `sema_infix`: left count, right count, and
the last-seen parenthesis token of either kind (initially the dummy
`Token::new(End, 0, 0)`). -/
def parenScanAux : List Token → Nat × Nat × Token → Nat × Nat × Token
  | [], acc => acc
  | e :: rest, (l, r, lastpar) =>
    if e.kind = TokenKind.LPar then parenScanAux rest (l + 1, r, e)
    else if e.kind = TokenKind.RPar then parenScanAux rest (l, r + 1, e)
    else parenScanAux rest (l, r, lastpar)

/-- The adjacency loop of `sema_infix` (rules 1 and 2): each token is
compared with its immediate successor. -/
def sema_adj : List Token → InfixCheck
  | [] => .ok
  | a :: rest =>
    match rest with
    | [] =>
      if a.is_operand then .ok
      else if a.is_operator then .expectedOperand a.line a.column
      else .ok
    | b :: _ =>
      if a.is_operand then
        if b.is_operand || b.is_paren then .expectedOperator a.line a.column
        else sema_adj rest
      else if a.is_operator then
        if b.is_operator then .expectedOperand a.line a.column
        else sema_adj rest
      else sema_adj rest

/-- `sema::sema_infix`, with its printed diagnostic made explicit: first
the paren-count check (citing the last-seen parenthesis of either kind),
then the adjacency scan. -/
def sema_infixRes (expr : List Token) : InfixCheck :=
  match parenScanAux expr (0, 0, Token.new TokenKind.End 0 0) with
  | (lpars, rpars, lastpar) =>
    if lpars ≠ rpars then
      .parenErr (if lpars > rpars then '(' else ')') lastpar.line lastpar.column
    else sema_adj expr

/-- Boolean result of `sema::sema_infix`. -/
def sema_infix (expr : List Token) : Bool :=
  match sema_infixRes expr with
  | .ok => true
  | _ => false

/-- Outcome of the postfix pass (`sema::sema_rpn`).  `underflow n` records
the "has `n` operand(s) but needs 2" diagnostic (`n` is 0 when the first
pop fails, 1 when the second does).  In the source the diagnostic also
calls `Token::to_string`, which would itself panic for `Invalid`/`End`
tokens; such tokens never reach `sema_rpn` through `collect`. -/
inductive RpnCheck where
  | ok
  | parenL (line col : Nat)
  | parenR (line col : Nat)
  | underflow (n : Nat) (line col : Nat)
  | leftover
  deriving DecidableEq

/-- The virtual-stack loop of `sema_rpn`: only the stack depth matters,
since every pushed value is the same dummy. -/
def sema_rpnAux : List Token → Nat → RpnCheck
  | [], n => if n = 1 then .ok else .leftover
  | e :: rest, n =>
    match e.kind with
    | .Num _ | .Ident _ => sema_rpnAux rest (n + 1)
    | .LPar => .parenL e.line e.column
    | .RPar => .parenR e.line e.column
    | _ =>
      if n = 0 then .underflow 0 e.line e.column
      else if n = 1 then .underflow 1 e.line e.column
      else sema_rpnAux rest (n - 1)

/-- Diagnostic-carrying result of `sema::sema_rpn`. -/
def sema_rpnRes (expr : List Token) : RpnCheck :=
  sema_rpnAux expr 0

/-- Boolean result of `sema::sema_rpn`. -/
def sema_rpn (expr : List Token) : Bool :=
  match sema_rpnRes expr with
  | .ok => true
  | _ => false

/-! ### Derived notions used to state the claims -/

/-- Number of tokens of a given kind in a sequence. -/
def countKind (k : TokenKind) : List Token → Nat
  | [] => 0
  | t :: rest => (if t.kind = k then 1 else 0) + countKind k rest

/-- The last token of a sequence satisfying a predicate, if any. -/
def lastTokenWith (p : Token → Bool) : List Token → Option Token
  | [] => none
  | t :: rest =>
    match lastTokenWith p rest with
    | some u => some u
    | none => if p t then some t else none

/-- Left-to-right parenthesis discipline: scanning with `k` currently open
left parentheses, no right parenthesis ever arrives with none open
(equivalently, every prefix has at least as many `LPar` as `RPar`). -/
def prefixParenOk : Nat → List Token → Bool
  | _, [] => true
  | k, t :: rest =>
    if t.kind = TokenKind.LPar then prefixParenOk (k + 1) rest
    else if t.kind = TokenKind.RPar then
      if k = 0 then false else prefixParenOk (k - 1) rest
    else prefixParenOk k rest

/-- Total view of `Token.precedence` (0 for the kinds on which the source
would panic; only ever used on tokens whose precedence is defined). -/
def precVal (t : Token) : Int := t.precedence.getD 0

/-- The pop condition of `add_operator` as stated by the specification:
keep popping while the stack top is not a `LPar` and its precedence is at
least that of the incoming operator. -/
def keepPopping (op t : Token) : Bool :=
  if t.kind = TokenKind.LPar then false else decide (precVal op ≤ precVal t)

/-- A token a full tokeniser run can actually hand to the validators:
`collect` never emits `Invalid` or `End` tokens. -/
def realTok (t : Token) : Bool :=
  match t.kind with
  | .Invalid _ => false
  | .End => false
  | _ => true

/-- Signed virtual-stack contribution of one token: +1 per operand, −1
per (binary) operator, 0 otherwise. -/
def contrib (t : Token) : Int :=
  if t.is_operand then 1 else if t.is_operator then -1 else 0

/-- Signed virtual-stack depth of a whole sequence. -/
def vdepth : List Token → Int
  | [] => 0
  | t :: rest => contrib t + vdepth rest

/-- No-underflow condition at offset depth `d`: wherever an operator
splits the sequence, the depth accumulated before it is at least 2. -/
def splitCond (d : Int) (ts : List Token) : Prop :=
  ∀ p op q, ts = p ++ op :: q → op.is_operator = true → 2 ≤ d + vdepth p

/-- Depth transition of one token of a postfix sequence, as performed by
the virtual stack of `sema_rpn` (`none` = failure). -/
def runStep (o : Option Nat) (t : Token) : Option Nat :=
  match o with
  | none => none
  | some d =>
    match t.kind with
    | .Num _ | .Ident _ => some (d + 1)
    | .LPar | .RPar => none
    | _ => if d < 2 then none else some (d - 1)

/-- Virtual-stack depth after a postfix sequence, starting from `o`. -/
def runFrom (ts : List Token) (o : Option Nat) : Option Nat :=
  ts.foldl runStep o

/-- Grammatically well-formed infix token sequences.  `WfExpr false ts`:
`ts` is a single operand or a parenthesised expression; `WfExpr true ts`:
`ts` is a nonempty chain of such terms joined by binary operators. -/
inductive WfExpr : Bool → List Token → Prop where
  | operand (t : Token) : t.is_operand = true → WfExpr false [t]
  | paren (l r : Token) (ts : List Token) :
      l.kind = TokenKind.LPar → r.kind = TokenKind.RPar →
      WfExpr true ts → WfExpr false (l :: ts ++ [r])
  | single (ts : List Token) : WfExpr false ts → WfExpr true ts
  | binop (ts : List Token) (op : Token) (t : List Token) :
      WfExpr true ts → op.is_operator = true → WfExpr false t →
      WfExpr true (ts ++ op :: t)

/-- A stack on which `add_operator` and a right parenthesis cannot pop
past the top: empty, or topped by a `LPar`. -/
def BarrierStk (stk : List Token) : Prop :=
  stk = [] ∨ ∃ t rest, stk = t :: rest ∧ t.kind = TokenKind.LPar

/-! ### Basic lemmas about the tokeniser front end -/

lemma asciiBytes_of_ascii (s : List Nat) (h : ∀ c ∈ s, c ≤ 127) :
    asciiBytes s = some s := by
  induction s with
  | nil => rfl
  | cons c rest ih =>
    have hc : ¬ 127 < c := by
      have := h c (List.mem_cons_self c rest)
      omega
    have hrest : asciiBytes rest = some rest :=
      ih (fun x hx => h x (List.mem_cons_of_mem c hx))
    simp [asciiBytes, hc, hrest]

lemma asciiBytes_none_iff (s : List Nat) :
    asciiBytes s = none ↔ ∃ c ∈ s, 127 < c := by
  induction s with
  | nil => simp [asciiBytes]
  | cons c rest ih =>
    by_cases hc : 127 < c
    · simp [asciiBytes, hc]
    · simp only [asciiBytes, hc, if_false]
      constructor
      · intro h
        have h2 : asciiBytes rest = none := Option.map_eq_none'.mp h
        rcases ih.mp h2 with ⟨x, hmem, hgt⟩
        exact ⟨x, List.mem_cons_of_mem c hmem, hgt⟩
      · rintro ⟨x, hx, hgt⟩
        rcases List.mem_cons.mp hx with rfl | hmem
        · omega
        · have : asciiBytes rest = none := ih.mpr ⟨x, hmem, hgt⟩
          simp [this]

lemma robuffer_new_none_iff (s : List Nat) :
    ROBuffer.new s = none ↔ ∃ c ∈ s, 127 < c := by
  rw [ROBuffer.new, Option.map_eq_none']
  exact asciiBytes_none_iff s

/-- C8. `ROBuffer::new` fails exactly when some character of the input
exceeds 0x7F, and on all-ASCII input succeeds with the input bytes as
contents and read offset 0. -/
theorem C8_robuffer_new (s : List Nat) :
    (ROBuffer.new s = none ↔ ∃ c ∈ s, 127 < c) ∧
    ((∀ c ∈ s, c ≤ 127) → ROBuffer.new s = some { contents := s, offset := 0 }) := by
  constructor
  · exact robuffer_new_none_iff s
  · intro h
    rw [ROBuffer.new, asciiBytes_of_ascii s h, Option.map_some']

/-- Witness for C8 at the concrete all-ASCII input "hi" = [104, 105]. -/
theorem C8_robuffer_new_witness :
    ROBuffer.new [104, 105] = some { contents := [104, 105], offset := 0 } :=
  (C8_robuffer_new [104, 105]).2 (by decide)

/-- C9. `Tokeniser::new` unwraps the buffer construction, so it panics
(modelled as `none`) exactly when the input contains a character above
0x7F: the encoding failure is never returned as an error value. -/
theorem C9_tokeniser_new_panics (s : List Nat) :
    Tokeniser.new s = none ↔ ∃ c ∈ s, 127 < c := by
  rw [Tokeniser.new, Option.map_eq_none']
  exact robuffer_new_none_iff s

/-- Witness for C9 at the concrete non-ASCII input [200]. -/
theorem C9_tokeniser_new_panics_witness : Tokeniser.new [200] = none :=
  (C9_tokeniser_new_panics [200]).mpr (by decide)

/-- C7. Tokenising "12" yields a single `Num 12` token at line 1,
column 1; tokenising "12 + 3" yields the `Add` token at column 4 (and the
`Num 3` token at column 6). -/
theorem C7_positions :
    collect [49, 50] = some [Token.new (TokenKind.Num 12) 1 1] ∧
    collect [49, 50, 32, 43, 32, 51] =
      some [Token.new (TokenKind.Num 12) 1 1, Token.new TokenKind.Add 4 1,
            Token.new (TokenKind.Num 3) 6 1] := by
  decide

/-! ### The paren-count diagnostic of the infix pass (C4) -/

lemma parenScanAux_spec (ts : List Token) : ∀ l r lastpar,
    parenScanAux ts (l, r, lastpar) =
      (l + countKind TokenKind.LPar ts, r + countKind TokenKind.RPar ts,
       (lastTokenWith Token.is_paren ts).getD lastpar) := by
  induction ts with
  | nil => intro l r lastpar; simp [parenScanAux, countKind, lastTokenWith]
  | cons t rest ih =>
    intro l r lastpar
    by_cases hL : t.kind = TokenKind.LPar
    · have hp : t.is_paren = true := by simp [Token.is_paren, hL]
      rw [parenScanAux, if_pos hL, ih]
      rcases h2 : lastTokenWith Token.is_paren rest with _ | u <;>
        simp [countKind, lastTokenWith, hL, h2, hp] <;> omega
    · by_cases hR : t.kind = TokenKind.RPar
      · have hp : t.is_paren = true := by simp [Token.is_paren, hR]
        rw [parenScanAux, if_neg hL, if_pos hR, ih]
        rcases h2 : lastTokenWith Token.is_paren rest with _ | u <;>
          simp [countKind, lastTokenWith, hL, hR, h2, hp] <;> omega
      · have hp : t.is_paren = false := by
          rcases t with ⟨k, ln, c⟩; cases k <;> simp_all [Token.is_paren]
        rw [parenScanAux, if_neg hL, if_neg hR, ih]
        rcases h2 : lastTokenWith Token.is_paren rest with _ | u <;>
          simp [countKind, lastTokenWith, hL, hR, h2, hp]

lemma lastTokenWith_none (p : Token → Bool) (ts : List Token)
    (h : lastTokenWith p ts = none) : ∀ t ∈ ts, p t = false := by
  induction ts with
  | nil => simp
  | cons t rest ih =>
    intro u hu
    rw [lastTokenWith] at h
    rcases h2 : lastTokenWith p rest with _ | v
    · rw [h2] at h
      rcases List.mem_cons.mp hu with rfl | hmem
      · by_cases hp : p u = true
        · rw [if_pos hp] at h; exact absurd h (by simp)
        · simpa using hp
      · exact ih h2 u hmem
    · rw [h2] at h; exact absurd h (by simp)

lemma countKind_zero_of_no_paren (k : TokenKind) (ts : List Token)
    (hk : ∀ t ∈ ts, t.kind ≠ k) : countKind k ts = 0 := by
  induction ts with
  | nil => rfl
  | cons t rest ih =>
    rw [countKind, if_neg (hk t (List.mem_cons_self t rest))]
    simpa using ih (fun u hu => hk u (List.mem_cons_of_mem t hu))

/-- C4, counterexample.  On the sequence `( ( )` the left count (2)
exceeds the right count (1), so the excess symbol is indeed reported as
`(`, but the cited position is line 1 column 3 — the position of the
last-seen parenthesis of either kind (the `)`), not the position (1, 2)
of the last-seen `(` as the claim states. -/
theorem C4_cex :
    sema_infixRes [Token.new TokenKind.LPar 1 1, Token.new TokenKind.LPar 2 1,
                   Token.new TokenKind.RPar 3 1] =
      InfixCheck.parenErr '(' 1 3 ∧
    lastTokenWith (fun t => decide (t.kind = TokenKind.LPar))
        [Token.new TokenKind.LPar 1 1, Token.new TokenKind.LPar 2 1,
         Token.new TokenKind.RPar 3 1] = some (Token.new TokenKind.LPar 2 1) ∧
    sema_infixRes [Token.new TokenKind.LPar 1 1, Token.new TokenKind.LPar 2 1,
                   Token.new TokenKind.RPar 3 1] ≠
      InfixCheck.parenErr '(' 1 2 := by
  decide

/-- C4, amended.  If the `LPar` and `RPar` counts differ, `sema_infix`
returns `false` and the diagnostic names the symbol in excess together
with the position of the last-seen parenthesis of either kind (not
necessarily of the excess kind). -/
theorem C4_paren_report (ts : List Token)
    (h : countKind TokenKind.LPar ts ≠ countKind TokenKind.RPar ts) :
    sema_infix ts = false ∧
    ∃ last, lastTokenWith Token.is_paren ts = some last ∧
      sema_infixRes ts =
        InfixCheck.parenErr
          (if countKind TokenKind.LPar ts > countKind TokenKind.RPar ts
           then '(' else ')')
          last.line last.column := by
  rcases h2 : lastTokenWith Token.is_paren ts with _ | last
  · exfalso
    have hall := lastTokenWith_none Token.is_paren ts h2
    have hk : ∀ k, (k = TokenKind.LPar ∨ k = TokenKind.RPar) →
        countKind k ts = 0 := by
      intro k hkk
      refine countKind_zero_of_no_paren k ts (fun t ht hkind => ?_)
      have := hall t ht
      rcases t with ⟨tk, ln, c⟩
      rcases hkk with rfl | rfl <;> subst hkind <;> simp [Token.is_paren] at this
    exact h ((hk _ (Or.inl rfl)).trans (hk _ (Or.inr rfl)).symm)
  · have hres : sema_infixRes ts =
        InfixCheck.parenErr
          (if countKind TokenKind.LPar ts > countKind TokenKind.RPar ts
           then '(' else ')')
          last.line last.column := by
      rw [sema_infixRes, parenScanAux_spec, h2]
      simp [h]
    refine ⟨?_, last, rfl, hres⟩
    rw [ sema_infix, hres]

/-- Witness for C4 at the concrete input `(`. -/
theorem C4_paren_report_witness :
    sema_infix [Token.new TokenKind.LPar 1 1] = false ∧
    ∃ last, lastTokenWith Token.is_paren [Token.new TokenKind.LPar 1 1] = some last ∧
      sema_infixRes [Token.new TokenKind.LPar 1 1] =
        InfixCheck.parenErr
          (if countKind TokenKind.LPar [Token.new TokenKind.LPar 1 1] >
              countKind TokenKind.RPar [Token.new TokenKind.LPar 1 1]
           then '(' else ')')
          last.line last.column :=
  C4_paren_report [Token.new TokenKind.LPar 1 1] (by decide)

/-! ### Assign in validated expressions (C3) -/

/-- C3, counterexample.  The sequence `1 = 2` contains an `Assign` token,
passes the infix validator, reduces to the postfix sequence `1 2 =`, and
that postfix sequence passes the postfix validator: an `Assign` token does
appear in a fully validated expression. -/
theorem C3_cex :
    sema_infix [Token.new (TokenKind.Num 1) 1 1, Token.new TokenKind.Assign 3 1,
                Token.new (TokenKind.Num 2) 5 1] = true ∧
    to_rpn [Token.new (TokenKind.Num 1) 1 1, Token.new TokenKind.Assign 3 1,
            Token.new (TokenKind.Num 2) 5 1] =
      Except.ok [Token.new (TokenKind.Num 1) 1 1, Token.new (TokenKind.Num 2) 5 1,
                 Token.new TokenKind.Assign 3 1] ∧
    sema_rpn [Token.new (TokenKind.Num 1) 1 1, Token.new (TokenKind.Num 2) 5 1,
              Token.new TokenKind.Assign 3 1] = true ∧
    (Token.new TokenKind.Assign 3 1).kind = TokenKind.Assign := by
  decide

/-- C3, amended.  `Assign` is classified as an operator by
`Token::is_operator` and is handled as an ordinary binary operator by both
validators and the reducer: every sequence `Number = Number`, whatever the
values and positions, passes `sema_infix`, reduces without panic, and its
reduction passes `sema_rpn`. -/
theorem C3_assign_accepted (n m : Int) (l1 c1 l2 c2 l3 c3 : Nat) :
    (Token.new TokenKind.Assign c2 l2).is_operator = true ∧
    sema_infix [Token.new (TokenKind.Num n) c1 l1, Token.new TokenKind.Assign c2 l2,
                Token.new (TokenKind.Num m) c3 l3] = true ∧
    to_rpn [Token.new (TokenKind.Num n) c1 l1, Token.new TokenKind.Assign c2 l2,
            Token.new (TokenKind.Num m) c3 l3] =
      Except.ok [Token.new (TokenKind.Num n) c1 l1, Token.new (TokenKind.Num m) c3 l3,
                 Token.new TokenKind.Assign c2 l2] ∧
    sema_rpn [Token.new (TokenKind.Num n) c1 l1, Token.new (TokenKind.Num m) c3 l3,
              Token.new TokenKind.Assign c2 l2] = true := by
  refine ⟨rfl, ?_, rfl, rfl⟩
  rfl

/-! ### The pop loop of add_operator (C6) -/

lemma operator_precedence (t : Token) (h : t.is_operator = true) :
    t.precedence = some (precVal t) := by
  rcases t with ⟨k, ln, c⟩
  cases k <;> simp_all [Token.is_operator, Token.precedence, precVal]

lemma operator_ne_LPar (t : Token) (h : t.is_operator = true) :
    t.kind ≠ TokenKind.LPar := by
  rcases t with ⟨k, ln, c⟩
  cases k <;> simp_all [Token.is_operator]

/-- C6.  For an operator `op` arriving at a stack of operators and open
parentheses, `add_operator` emits to the output exactly the maximal run of
stack tops that are not `LPar` and whose precedence is at least `op`'s
(in pop order), leaves the rest of the stack intact, and pushes `op` on
top; it never panics on such a stack. -/
theorem C6_add_operator (stk out : List Token) (op : Token)
    (hop : op.is_operator = true)
    (hstk : ∀ t ∈ stk, t.kind = TokenKind.LPar ∨ t.is_operator = true) :
    add_operator stk out op =
      some (op :: stk.dropWhile (keepPopping op),
            out ++ stk.takeWhile (keepPopping op)) := by
  induction stk generalizing out with
  | nil => simp [add_operator]
  | cons top rest ih =>
    by_cases hL : top.kind = TokenKind.LPar
    · have hkp : keepPopping op top = false := by simp [keepPopping, hL]
      rw [add_operator, if_pos hL, List.dropWhile_cons, List.takeWhile_cons, hkp]
      simp
    · have htop : top.is_operator = true := by
        rcases hstk top (List.mem_cons_self top rest) with h | h
        · exact absurd h hL
        · exact h
      rw [add_operator, if_neg hL, operator_precedence top htop,
          operator_precedence op hop]
      show (if precVal top < precVal op then some (op :: top :: rest, out)
            else add_operator rest (out ++ [top]) op) =
        some (op :: List.dropWhile (keepPopping op) (top :: rest),
              out ++ List.takeWhile (keepPopping op) (top :: rest))
      by_cases hlt : precVal top < precVal op
      · have hkp : keepPopping op top = false := by
          simp only [keepPopping, hL, if_false, decide_eq_false_iff_not]
          omega
        rw [if_pos hlt, List.dropWhile_cons, List.takeWhile_cons, hkp]
        simp
      · have hkp : keepPopping op top = true := by
          simp only [keepPopping, hL, if_false, decide_eq_true_eq]
          omega
        rw [if_neg hlt, List.dropWhile_cons, List.takeWhile_cons, hkp,
            ih (out ++ [top]) (fun t ht => hstk t (List.mem_cons_of_mem top ht))]
        simp

/-- Witness for C6: `*` arriving at the stack `[+, (]` pops nothing
(since + has lower precedence) and is pushed on top. -/
theorem C6_add_operator_witness :
    add_operator [Token.new TokenKind.Add 2 1, Token.new TokenKind.LPar 1 1] []
        (Token.new TokenKind.Mul 4 1) =
      some ([Token.new TokenKind.Mul 4 1, Token.new TokenKind.Add 2 1,
             Token.new TokenKind.LPar 1 1], []) := by
  have h := C6_add_operator
    [Token.new TokenKind.Add 2 1, Token.new TokenKind.LPar 1 1] []
    (Token.new TokenKind.Mul 4 1) (by decide) (by decide)
  exact h.trans (by decide)

/-! ### Operand preservation through the reducer (C10) -/

lemma filter_cons_false {p : Token → Bool} {t : Token} {l : List Token}
    (h : p t = false) : (t :: l).filter p = l.filter p := by
  simp [List.filter_cons, h]

lemma filter_cons_eq_nil {p : Token → Bool} {t : Token} {l : List Token}
    (h : (t :: l).filter p = []) : p t = false ∧ l.filter p = [] := by
  by_cases hp : p t = true
  · rw [List.filter_cons, if_pos hp] at h
    exact absurd h (by simp)
  · have hf : p t = false := by simpa using hp
    rw [filter_cons_false hf] at h
    exact ⟨hf, h⟩

lemma add_operator_operands (stk : List Token) : ∀ out stk2 out2 (op : Token),
    add_operator stk out op = some (stk2, out2) →
    stk.filter Token.is_operand = [] →
    op.is_operand = false →
    stk2.filter Token.is_operand = [] ∧
    out2.filter Token.is_operand = out.filter Token.is_operand := by
  induction stk with
  | nil =>
    intro out stk2 out2 op h hstk hop
    simp only [add_operator, Option.some.injEq, Prod.mk.injEq] at h
    obtain ⟨rfl, rfl⟩ := h
    exact ⟨by simp [List.filter_cons, hop], rfl⟩
  | cons top rest ih =>
    intro out stk2 out2 op h hstk hop
    obtain ⟨htop, hrest⟩ := filter_cons_eq_nil hstk
    rw [add_operator] at h
    by_cases hL : top.kind = TokenKind.LPar
    · rw [if_pos hL] at h
      simp only [Option.some.injEq, Prod.mk.injEq] at h
      obtain ⟨rfl, rfl⟩ := h
      refine ⟨?_, rfl⟩
      rw [filter_cons_false hop, filter_cons_false htop, hrest]
    · rw [if_neg hL] at h
      rcases hpt : top.precedence with _ | pt <;> rw [hpt] at h
      · exact absurd h (by simp)
      · rcases hpo : op.precedence with _ | po <;> rw [hpo] at h
        · exact absurd h (by simp)
        · have h2 : (if pt < po then some (op :: top :: rest, out)
              else add_operator rest (out ++ [top]) op) = some (stk2, out2) := h
          by_cases hlt : pt < po
          · rw [if_pos hlt] at h2
            simp only [Option.some.injEq, Prod.mk.injEq] at h2
            obtain ⟨rfl, rfl⟩ := h2
            refine ⟨?_, rfl⟩
            rw [filter_cons_false hop, filter_cons_false htop, hrest]
          · rw [if_neg hlt] at h2
            rcases ih (out ++ [top]) stk2 out2 op h2 hrest hop with ⟨h3, h4⟩
            refine ⟨h3, h4.trans ?_⟩
            rw [List.filter_append, filter_cons_false htop]
            simp

lemma popUntilLPar_operands (stk : List Token) : ∀ out stk2 out2,
    popUntilLPar stk out = some (stk2, out2) →
    stk.filter Token.is_operand = [] →
    stk2.filter Token.is_operand = [] ∧
    out2.filter Token.is_operand = out.filter Token.is_operand := by
  induction stk with
  | nil =>
    intro out stk2 out2 h
    exact absurd h (by simp [popUntilLPar])
  | cons top rest ih =>
    intro out stk2 out2 h hstk
    obtain ⟨htop, hrest⟩ := filter_cons_eq_nil hstk
    rw [popUntilLPar] at h
    by_cases hL : top.kind = TokenKind.LPar
    · rw [if_pos hL] at h
      simp only [Option.some.injEq, Prod.mk.injEq] at h
      obtain ⟨rfl, rfl⟩ := h
      exact ⟨hrest, rfl⟩
    · rw [if_neg hL] at h
      rcases ih (out ++ [top]) stk2 out2 h hrest with ⟨h1, h2⟩
      refine ⟨h1, h2.trans ?_⟩
      rw [List.filter_append, filter_cons_false htop]
      simp

lemma to_rpnAux_operands (l : List Token) : ∀ stk out res,
    to_rpnAux l stk out = .ok res →
    stk.filter Token.is_operand = [] →
    res.filter Token.is_operand =
      out.filter Token.is_operand ++ l.filter Token.is_operand := by
  induction l with
  | nil =>
    intro stk out res h hstk
    rw [to_rpnAux] at h
    injection h with h
    subst h
    simp [List.filter_append, hstk]
  | cons e rest ih =>
    intro stk out res h hstk
    rcases e with ⟨k, ln, c⟩
    cases k
    case Num n =>
      have h2 : to_rpnAux rest stk (out ++ [Token.mk (TokenKind.Num n) ln c]) =
          Except.ok res := h
      rw [ih stk _ res h2 hstk, List.filter_append]
      have hopd : (Token.mk (TokenKind.Num n) ln c).is_operand = true := rfl
      simp [List.filter_cons, hopd]
    case Ident bs =>
      have h2 : to_rpnAux rest stk (out ++ [Token.mk (TokenKind.Ident bs) ln c]) =
          Except.ok res := h
      rw [ih stk _ res h2 hstk, List.filter_append]
      have hopd : (Token.mk (TokenKind.Ident bs) ln c).is_operand = true := rfl
      simp [List.filter_cons, hopd]
    case LPar =>
      have h2 : to_rpnAux rest (Token.mk TokenKind.LPar ln c :: stk) out =
          Except.ok res := h
      have hstk2 : (Token.mk TokenKind.LPar ln c :: stk).filter Token.is_operand = [] := by
        rw [filter_cons_false (by rfl), hstk]
      rw [ih _ out res h2 hstk2, filter_cons_false (by rfl)]
    case RPar =>
      rcases hp : popUntilLPar stk out with _ | ⟨stk2, out2⟩
      · have h2 : (Except.error (RpnErr.mismatchedParen ln c) :
            Except RpnErr (List Token)) = Except.ok res := by
          rw [to_rpnAux, hp] at h
          exact h
        exact absurd h2 (by simp)
      · have h2 : to_rpnAux rest stk2 out2 = Except.ok res := by
          rw [to_rpnAux, hp] at h
          exact h
        rcases popUntilLPar_operands stk out stk2 out2 hp hstk with ⟨h1, h3⟩
        rw [ih stk2 out2 res h2 h1, h3, filter_cons_false (by rfl)]
    all_goals {
      rcases hado : add_operator stk out (Token.mk _ ln c) with _ | ⟨stk2, out2⟩
      · have h2 : (Except.error RpnErr.precPanic :
            Except RpnErr (List Token)) = Except.ok res := by
          rw [to_rpnAux, hado] at h
          exact h
        exact absurd h2 (by simp)
      · have h2 : to_rpnAux rest stk2 out2 = Except.ok res := by
          rw [to_rpnAux, hado] at h
          exact h
        rcases add_operator_operands stk out stk2 out2 _ hado hstk (by rfl)
          with ⟨h1, h3⟩
        rw [ih stk2 out2 res h2 h1, h3, filter_cons_false (by rfl)]
    }

/-- C10.  Whenever the reducer completes without panicking, the operand
tokens (`Num` and `Ident`) of the output are exactly the operand tokens of
the input, in the same order: `to_rpn` never reorders, drops or
duplicates operands. -/
theorem C10_operand_preservation (e out : List Token)
    (h : to_rpn e = .ok out) :
    out.filter Token.is_operand = e.filter Token.is_operand := by
  have := to_rpnAux_operands e [] [] out h (by rfl)
  simpa using this

/-- Witness for C10 at the concrete input `1 + 2`. -/
theorem C10_operand_preservation_witness :
    ([Token.new (TokenKind.Num 1) 1 1, Token.new (TokenKind.Num 2) 5 1,
      Token.new TokenKind.Add 3 1] : List Token).filter Token.is_operand =
    ([Token.new (TokenKind.Num 1) 1 1, Token.new TokenKind.Add 3 1,
      Token.new (TokenKind.Num 2) 5 1] : List Token).filter Token.is_operand :=
  C10_operand_preservation
    [Token.new (TokenKind.Num 1) 1 1, Token.new TokenKind.Add 3 1,
     Token.new (TokenKind.Num 2) 5 1]
    [Token.new (TokenKind.Num 1) 1 1, Token.new (TokenKind.Num 2) 5 1,
     Token.new TokenKind.Add 3 1]
    (by decide)

/-! ### Unreachability of the mismatched-paren panic (C1) -/

lemma add_operator_LPar_count (stk : List Token) : ∀ out stk2 out2 (op : Token),
    add_operator stk out op = some (stk2, out2) →
    op.kind ≠ TokenKind.LPar →
    countKind TokenKind.LPar stk2 = countKind TokenKind.LPar stk := by
  induction stk with
  | nil =>
    intro out stk2 out2 op h hop
    simp only [add_operator, Option.some.injEq, Prod.mk.injEq] at h
    obtain ⟨rfl, rfl⟩ := h
    simp [countKind, hop]
  | cons top rest ih =>
    intro out stk2 out2 op h hop
    rw [add_operator] at h
    by_cases hL : top.kind = TokenKind.LPar
    · rw [if_pos hL] at h
      simp only [Option.some.injEq, Prod.mk.injEq] at h
      obtain ⟨rfl, rfl⟩ := h
      simp [countKind, hop]
    · rw [if_neg hL] at h
      rcases hpt : top.precedence with _ | pt <;> rw [hpt] at h
      · exact absurd h (by simp)
      · rcases hpo : op.precedence with _ | po <;> rw [hpo] at h
        · exact absurd h (by simp)
        · have h2 : (if pt < po then some (op :: top :: rest, out)
              else add_operator rest (out ++ [top]) op) = some (stk2, out2) := h
          by_cases hlt : pt < po
          · rw [if_pos hlt] at h2
            simp only [Option.some.injEq, Prod.mk.injEq] at h2
            obtain ⟨rfl, rfl⟩ := h2
            simp [countKind, hop]
          · rw [if_neg hlt] at h2
            rw [ih (out ++ [top]) stk2 out2 op h2 hop]
            simp [countKind, hL]

lemma popUntilLPar_succeeds (stk : List Token) : ∀ out,
    1 ≤ countKind TokenKind.LPar stk →
    ∃ stk2 out2, popUntilLPar stk out = some (stk2, out2) ∧
      countKind TokenKind.LPar stk2 = countKind TokenKind.LPar stk - 1 := by
  induction stk with
  | nil => intro out h; simp [countKind] at h
  | cons top rest ih =>
    intro out h
    by_cases hL : top.kind = TokenKind.LPar
    · refine ⟨rest, out, ?_, ?_⟩
      · rw [popUntilLPar, if_pos hL]
      · simp [countKind, hL]
    · have hcount : countKind TokenKind.LPar (top :: rest) =
          countKind TokenKind.LPar rest := by
        simp [countKind, hL]
      rw [hcount] at h
      rcases ih (out ++ [top]) h with ⟨stk2, out2, h1, h2⟩
      refine ⟨stk2, out2, ?_, ?_⟩
      · rw [popUntilLPar, if_neg hL, h1]
      · rw [h2, hcount]

lemma to_rpnAux_no_mismatch (l : List Token) : ∀ k stk out,
    prefixParenOk k l = true →
    countKind TokenKind.LPar stk = k →
    ∀ ln c, to_rpnAux l stk out ≠ .error (.mismatchedParen ln c) := by
  induction l with
  | nil =>
    intro k stk out hpre hcount ln c hcontra
    rw [to_rpnAux] at hcontra
    exact absurd hcontra (by simp)
  | cons e rest ih =>
    intro k stk out hpre hcount ln c
    rcases e with ⟨ek, eln, ec⟩
    cases ek
    case Num n =>
      have h2 : prefixParenOk k rest = true := hpre
      exact ih k stk (out ++ [Token.mk (TokenKind.Num n) eln ec]) h2 hcount ln c
    case Ident bs =>
      have h2 : prefixParenOk k rest = true := hpre
      exact ih k stk (out ++ [Token.mk (TokenKind.Ident bs) eln ec]) h2 hcount ln c
    case LPar =>
      have h2 : prefixParenOk (k + 1) rest = true := hpre
      have hcount2 : countKind TokenKind.LPar
          (Token.mk TokenKind.LPar eln ec :: stk) = k + 1 := by
        simp [countKind, hcount]
        omega
      exact ih (k + 1) _ out h2 hcount2 ln c
    case RPar =>
      have hk : k ≠ 0 := by
        intro hk0
        subst hk0
        have h2 : false = true := hpre
        exact absurd h2 (by simp)
      have h2 : prefixParenOk (k - 1) rest = true := by
        have hstep : prefixParenOk k (Token.mk TokenKind.RPar eln ec :: rest) =
            if k = 0 then false else prefixParenOk (k - 1) rest := rfl
        rw [hstep, if_neg hk] at hpre
        exact hpre
      have hge : 1 ≤ countKind TokenKind.LPar stk := by omega
      rcases popUntilLPar_succeeds stk out hge with ⟨stk2, out2, hp, hc2⟩
      intro hcontra
      rw [to_rpnAux, hp] at hcontra
      have hc3 : to_rpnAux rest stk2 out2 =
          Except.error (RpnErr.mismatchedParen ln c) := hcontra
      exact ih (k - 1) stk2 out2 h2 (by omega) ln c hc3
    all_goals {
      intro hcontra
      rcases hado : add_operator stk out (Token.mk _ eln ec) with _ | ⟨stk2, out2⟩
      · rw [to_rpnAux, hado] at hcontra
        have h3 : (Except.error RpnErr.precPanic : Except RpnErr (List Token)) =
            Except.error (RpnErr.mismatchedParen ln c) := hcontra
        exact absurd h3 (by simp)
      · rw [to_rpnAux, hado] at hcontra
        have h3 : to_rpnAux rest stk2 out2 =
            Except.error (RpnErr.mismatchedParen ln c) := hcontra
        have h2 : prefixParenOk k rest = true := hpre
        have hcount2 := add_operator_LPar_count stk out stk2 out2 _ hado
          (fun hx => nomatch hx)
        exact ih k stk2 out2 h2 (hcount2.trans hcount) ln c h3
    }

/-- C1, counterexample.  The sequence `) (` is accepted by `sema_infix`
(the two counts agree and neither token takes part in the adjacency
rules), yet `to_rpn` hits the mismatched-parenthesis panic at the position
of the `)`. -/
theorem C1_cex :
    sema_infix [Token.new TokenKind.RPar 1 1, Token.new TokenKind.LPar 2 1] = true ∧
    to_rpn [Token.new TokenKind.RPar 1 1, Token.new TokenKind.LPar 2 1] =
      Except.error (RpnErr.mismatchedParen 1 1) := by
  decide

/-- C1, amended.  For every sequence accepted by `sema_infix` in which,
additionally, no prefix contains more right than left parentheses, the
reducer never raises the mismatched-parenthesis panic (it may still panic
inside `Token::precedence` on `Invalid`/`End` tokens, which is a different
panic site). -/
theorem C1_no_mismatch (e : List Token)
    (h1 : sema_infix e = true)
    (h2 : prefixParenOk 0 e = true) :
    ∀ ln c, to_rpn e ≠ .error (RpnErr.mismatchedParen ln c) :=
  fun ln c => to_rpnAux_no_mismatch e 0 [] [] h2 rfl ln c

/-- Witness for C1 at the concrete input `( + )` (accepted by the infix
pass, since parentheses are exempt from the adjacency rules). -/
theorem C1_no_mismatch_witness :
    to_rpn [Token.new TokenKind.LPar 1 1, Token.new TokenKind.Add 2 1,
            Token.new TokenKind.RPar 3 1] ≠
      Except.error (RpnErr.mismatchedParen 1 1) :=
  C1_no_mismatch
    [Token.new TokenKind.LPar 1 1, Token.new TokenKind.Add 2 1,
     Token.new TokenKind.RPar 3 1]
    (by decide) (by decide) 1 1

/-! ### Success characterization of the postfix pass (C5) -/

/-- The claim-level acceptance condition for the postfix pass, relative to
a starting depth `n`: no parenthesis anywhere, the running depth before
every operator is at least 2, and the final depth is exactly 1. -/
def RpnSpec (n : Int) (ts : List Token) : Prop :=
  (∀ u ∈ ts, u.is_paren = false) ∧ splitCond n ts ∧ n + vdepth ts = 1

lemma splitCond_nil (d : Int) : splitCond d [] := by
  intro p op q hpq hop
  rcases p with _ | ⟨x, p⟩ <;> exact nomatch hpq

lemma splitCond_cons (d : Int) (t : Token) (rest : List Token) :
    splitCond d (t :: rest) ↔
      ((t.is_operator = true → 2 ≤ d) ∧ splitCond (d + contrib t) rest) := by
  constructor
  · intro h
    constructor
    · intro hop
      have := h [] t rest rfl hop
      simpa [vdepth] using this
    · intro p op q hpq hop
      have h2 := h (t :: p) op q (by rw [hpq, List.cons_append]) hop
      rw [vdepth] at h2
      omega
  · rintro ⟨h1, h2⟩ p op q hpq hop
    rcases p with _ | ⟨x, p⟩
    · have hte : t = op := (List.cons.inj hpq).1
      subst hte
      have := h1 hop
      simp [vdepth]
      omega
    · obtain ⟨hte, hrest⟩ := List.cons.inj hpq
      subst hte
      have := h2 p op q hrest hop
      rw [vdepth]
      omega

lemma operand_not_paren (t : Token) (h : t.is_operand = true) :
    t.is_paren = false := by
  rcases t with ⟨k, ln, c⟩; cases k <;> simp_all [Token.is_operand, Token.is_paren]

lemma operand_not_operator (t : Token) (h : t.is_operand = true) :
    t.is_operator = false := by
  rcases t with ⟨k, ln, c⟩; cases k <;> simp_all [Token.is_operand, Token.is_operator]

lemma operator_not_paren (t : Token) (h : t.is_operator = true) :
    t.is_paren = false := by
  rcases t with ⟨k, ln, c⟩; cases k <;> simp_all [Token.is_operator, Token.is_paren]

lemma contrib_operand (t : Token) (h : t.is_operand = true) : contrib t = 1 := by
  rw [contrib, if_pos h]

lemma operator_not_operand (t : Token) (h : t.is_operator = true) :
    t.is_operand = false := by
  rcases t with ⟨k, ln, c⟩; cases k <;> simp_all [Token.is_operand, Token.is_operator]

lemma contrib_operator (t : Token) (h : t.is_operator = true) : contrib t = -1 := by
  rw [contrib, operator_not_operand t h]
  simp [h]

lemma RpnSpec_cons_operand (t : Token) (rest : List Token) (n : Int)
    (h : t.is_operand = true) :
    RpnSpec n (t :: rest) ↔ RpnSpec (n + 1) rest := by
  constructor
  · rintro ⟨hp, hs, hd⟩
    refine ⟨fun u hu => hp u (List.mem_cons_of_mem t hu), ?_, ?_⟩
    · have h2 := ((splitCond_cons n t rest).mp hs).2
      rwa [contrib_operand t h] at h2
    · rw [vdepth, contrib_operand t h] at hd
      omega
  · rintro ⟨hp, hs, hd⟩
    refine ⟨?_, ?_, ?_⟩
    · intro u hu
      rcases List.mem_cons.mp hu with rfl | hu2
      · exact operand_not_paren _ h
      · exact hp u hu2
    · rw [splitCond_cons, contrib_operand t h]
      refine ⟨fun hop => ?_, hs⟩
      rw [operand_not_operator t h] at hop
      exact absurd hop (by simp)
    · rw [vdepth, contrib_operand t h]
      omega

lemma RpnSpec_cons_operator (t : Token) (rest : List Token) (n : Int)
    (h : t.is_operator = true) :
    RpnSpec n (t :: rest) ↔ (2 ≤ n ∧ RpnSpec (n - 1) rest) := by
  constructor
  · rintro ⟨hp, hs, hd⟩
    have hsplit := (splitCond_cons n t rest).mp hs
    have h2 : 2 ≤ n := hsplit.1 h
    have h3 := hsplit.2
    rw [contrib_operator t h] at h3
    have h3b : splitCond (n - 1) rest := by
      have he : n + -1 = n - 1 := by ring
      rwa [he] at h3
    refine ⟨h2, fun u hu => hp u (List.mem_cons_of_mem t hu), h3b, ?_⟩
    rw [vdepth, contrib_operator t h] at hd
    omega
  · rintro ⟨h2, hp, hs, hd⟩
    refine ⟨?_, ?_, ?_⟩
    · intro u hu
      rcases List.mem_cons.mp hu with rfl | hu2
      · exact operator_not_paren _ h
      · exact hp u hu2
    · rw [splitCond_cons, contrib_operator t h]
      refine ⟨fun _ => h2, ?_⟩
      have he : n + -1 = n - 1 := by ring
      rwa [he]
    · rw [vdepth, contrib_operator t h]
      omega

lemma RpnSpec_cons_paren (t : Token) (rest : List Token) (n : Int)
    (h : t.is_paren = true) : ¬ RpnSpec n (t :: rest) := by
  rintro ⟨hp, -, -⟩
  have := hp t (List.mem_cons_self t rest)
  rw [h] at this
  exact absurd this (by simp)

lemma sema_rpnAux_cons_operand (t : Token) (rest : List Token) (n : Nat)
    (h : t.is_operand = true) :
    sema_rpnAux (t :: rest) n = sema_rpnAux rest (n + 1) := by
  rcases t with ⟨k, ln, c⟩
  cases k <;> first
    | rfl
    | exact absurd h (by simp [Token.is_operand])

lemma sema_rpnAux_cons_operator (t : Token) (rest : List Token) (n : Nat)
    (h : t.is_operator = true) :
    sema_rpnAux (t :: rest) n =
      if n = 0 then .underflow 0 t.line t.column
      else if n = 1 then .underflow 1 t.line t.column
      else sema_rpnAux rest (n - 1) := by
  rcases t with ⟨k, ln, c⟩
  cases k <;> first
    | rfl
    | exact absurd h (by simp [Token.is_operator])

lemma rpn_iff_operand_step (t : Token) (rest : List Token)
    (hopd : t.is_operand = true)
    (ih : ∀ m : Nat, sema_rpnAux rest m = .ok ↔ RpnSpec (m : Int) rest)
    (n : Nat) :
    (sema_rpnAux (t :: rest) n = .ok ↔ RpnSpec (n : Int) (t :: rest)) := by
  rw [sema_rpnAux_cons_operand t rest n hopd, ih (n + 1),
      RpnSpec_cons_operand t rest _ hopd]
  have hcast : ((n + 1 : Nat) : Int) = (n : Int) + 1 := by omega
  rw [hcast]

lemma rpn_iff_operator_step (t : Token) (rest : List Token)
    (hop : t.is_operator = true)
    (ih : ∀ m : Nat, sema_rpnAux rest m = .ok ↔ RpnSpec (m : Int) rest)
    (n : Nat) :
    (sema_rpnAux (t :: rest) n = .ok ↔ RpnSpec (n : Int) (t :: rest)) := by
  rw [sema_rpnAux_cons_operator t rest n hop, RpnSpec_cons_operator t rest _ hop]
  by_cases h0 : n = 0
  · subst h0
    rw [if_pos rfl]
    constructor
    · intro h; exact absurd h (by simp)
    · rintro ⟨h2, -⟩; omega
  · by_cases h1 : n = 1
    · subst h1
      rw [if_neg h0, if_pos rfl]
      constructor
      · intro h; exact absurd h (by simp)
      · rintro ⟨h2, -⟩; omega
    · rw [if_neg h0, if_neg h1, ih (n - 1)]
      have hcast : ((n - 1 : Nat) : Int) = (n : Int) - 1 := by omega
      rw [hcast]
      constructor
      · intro hsp
        exact ⟨by omega, hsp⟩
      · rintro ⟨-, hsp⟩
        exact hsp

lemma sema_rpnAux_ok_iff : ∀ ts : List Token, (∀ t ∈ ts, realTok t = true) →
    ∀ n : Nat, (sema_rpnAux ts n = .ok ↔ RpnSpec (n : Int) ts) := by
  intro ts
  induction ts with
  | nil =>
    intro hreal n
    constructor
    · intro hok
      have hn : n = 1 := by
        by_contra hn
        rw [sema_rpnAux, if_neg hn] at hok
        exact absurd hok (by simp)
      subst hn
      refine ⟨by simp, splitCond_nil 1, ?_⟩
      rw [show vdepth [] = 0 from rfl]
      ring
    · rintro ⟨-, -, hsum⟩
      rw [show vdepth [] = 0 from rfl, add_zero] at hsum
      have hn : n = 1 := by exact_mod_cast hsum
      rw [sema_rpnAux, if_pos hn]
  | cons t rest ih =>
    intro hreal n
    have hrest : ∀ u ∈ rest, realTok u = true :=
      fun u hu => hreal u (List.mem_cons_of_mem t hu)
    have ih2 : ∀ m : Nat, sema_rpnAux rest m = .ok ↔ RpnSpec (m : Int) rest :=
      fun m => ih hrest m
    rcases t with ⟨k, ln, c⟩
    cases k
    case Num nn => exact rpn_iff_operand_step (Token.mk (TokenKind.Num nn) ln c) rest rfl ih2 n
    case Ident bs => exact rpn_iff_operand_step (Token.mk (TokenKind.Ident bs) ln c) rest rfl ih2 n
    case LPar =>
      constructor
      · intro h
        have h2 : (RpnCheck.parenL ln c) = RpnCheck.ok := h
        exact absurd h2 (by simp)
      · intro h
        exact absurd h (RpnSpec_cons_paren _ rest _ rfl)
    case RPar =>
      constructor
      · intro h
        have h2 : (RpnCheck.parenR ln c) = RpnCheck.ok := h
        exact absurd h2 (by simp)
      · intro h
        exact absurd h (RpnSpec_cons_paren _ rest _ rfl)
    case Invalid b =>
      have hx := hreal _ (List.mem_cons_self _ _)
      simp [realTok] at hx
    case End =>
      have hx := hreal _ (List.mem_cons_self _ _)
      simp [realTok] at hx
    all_goals (refine rpn_iff_operator_step _ rest ?_ ih2 n; rfl)

lemma sema_rpn_true_iff_res (ts : List Token) :
    sema_rpn ts = true ↔ sema_rpnRes ts = .ok := by
  rcases h : sema_rpnRes ts <;> simp [sema_rpn, h]

/-- C5.  For sequences of real tokens (no `Invalid`, no `End`, which
`collect` never emits), `sema_rpn` succeeds iff the sequence contains no
parenthesis token, the running virtual-stack depth (one up per operand,
two down one up per operator) is at least 2 just before every operator,
and the depth over the whole sequence is exactly 1; in every other case
(paren token, underflow at some operator, or final count different from
one) it fails. -/
theorem C5_sema_rpn_iff (ts : List Token) (h : ∀ t ∈ ts, realTok t = true) :
    sema_rpn ts = true ↔
      ((∀ t ∈ ts, t.is_paren = false) ∧ splitCond 0 ts ∧ vdepth ts = 1) := by
  rw [sema_rpn_true_iff_res]
  have h2 := sema_rpnAux_ok_iff ts h 0
  rw [show ((0 : Nat) : Int) = 0 from rfl, RpnSpec, zero_add] at h2
  exact h2

/-- Witness for C5 at the concrete postfix sequence `1 2 +`. -/
theorem C5_sema_rpn_iff_witness :
    (∀ t ∈ ([Token.new (TokenKind.Num 1) 1 1, Token.new (TokenKind.Num 2) 5 1,
        Token.new TokenKind.Add 3 1] : List Token), t.is_paren = false) ∧
    splitCond 0 [Token.new (TokenKind.Num 1) 1 1, Token.new (TokenKind.Num 2) 5 1,
        Token.new TokenKind.Add 3 1] ∧
    vdepth [Token.new (TokenKind.Num 1) 1 1, Token.new (TokenKind.Num 2) 5 1,
        Token.new TokenKind.Add 3 1] = 1 :=
  (C5_sema_rpn_iff
    [Token.new (TokenKind.Num 1) 1 1, Token.new (TokenKind.Num 2) 5 1,
     Token.new TokenKind.Add 3 1] (by decide)).mp (by decide)

/-! ### The reducer on well-formed expressions (C2) -/

lemma runFrom_cons (t : Token) (ts : List Token) (o : Option Nat) :
    runFrom (t :: ts) o = runFrom ts (runStep o t) := rfl

lemma runFrom_append (a b : List Token) (o : Option Nat) :
    runFrom (a ++ b) o = runFrom b (runFrom a o) := by
  rw [runFrom, runFrom, runFrom, List.foldl_append]

lemma runFrom_none (ts : List Token) : runFrom ts none = none := by
  induction ts with
  | nil => rfl
  | cons t rest ih => rw [runFrom_cons]; exact ih

lemma runStep_operand (t : Token) (h : t.is_operand = true) (d : Nat) :
    runStep (some d) t = some (d + 1) := by
  rcases t with ⟨k, ln, c⟩
  cases k <;> first
    | rfl
    | exact absurd h (by simp [Token.is_operand])

lemma runStep_operator (t : Token) (h : t.is_operator = true) (d : Nat) :
    runStep (some d) t = if d < 2 then none else some (d - 1) := by
  rcases t with ⟨k, ln, c⟩
  cases k <;> first
    | rfl
    | exact absurd h (by simp [Token.is_operator])

lemma runFrom_ops (s : List Token) : (∀ t ∈ s, t.is_operator = true) →
    ∀ m : Nat, 1 ≤ m → runFrom s (some (m + s.length)) = some m := by
  induction s with
  | nil => intro hops m hm; simp [runFrom]
  | cons t rest ih =>
    intro hops m hm
    rw [runFrom_cons, runStep_operator t (hops t (List.mem_cons_self t rest))]
    rw [if_neg (by simp [List.length_cons]; omega)]
    have harith : m + (t :: rest).length - 1 = m + rest.length := by
      simp [List.length_cons]
    rw [harith]
    exact ih (fun u hu => hops u (List.mem_cons_of_mem t hu)) m hm

lemma popUntil_through (stkE : List Token) :
    ∀ out, (∀ t ∈ stkE, t.kind ≠ TokenKind.LPar) →
    ∀ (lt : Token) (stk : List Token), lt.kind = TokenKind.LPar →
    popUntilLPar (stkE ++ lt :: stk) out = some (stk, out ++ stkE) := by
  induction stkE with
  | nil =>
    intro out hops lt stk hlt
    rw [List.nil_append, popUntilLPar, if_pos hlt, List.append_nil]
  | cons t rest ih =>
    intro out hops lt stk hlt
    rw [List.cons_append, popUntilLPar,
        if_neg (hops t (List.mem_cons_self t rest)),
        ih (out ++ [t]) (fun u hu => hops u (List.mem_cons_of_mem t hu)) lt stk hlt]
    simp

lemma add_operator_barrier (stkE : List Token) :
    ∀ out (op : Token) (stk : List Token),
    (∀ t ∈ stkE, t.is_operator = true) →
    BarrierStk stk → op.is_operator = true →
    ∃ popped kept, stkE = popped ++ kept ∧
      add_operator (stkE ++ stk) out op =
        some (op :: (kept ++ stk), out ++ popped) := by
  induction stkE with
  | nil =>
    intro out op stk hops hb hop
    refine ⟨[], [], rfl, ?_⟩
    rcases hb with rfl | ⟨lt, rest, rfl, hlt⟩
    · simp [add_operator]
    · rw [List.nil_append, add_operator, if_pos hlt]
      simp
  | cons top rest ih =>
    intro out op stk hops hb hop
    have htop : top.is_operator = true := hops top (List.mem_cons_self top rest)
    rw [List.cons_append, add_operator, if_neg (operator_ne_LPar top htop),
        operator_precedence top htop, operator_precedence op hop]
    by_cases hlt : precVal top < precVal op
    · refine ⟨[], top :: rest, rfl, ?_⟩
      show (if precVal top < precVal op then some (op :: top :: (rest ++ stk), out)
            else add_operator (rest ++ stk) (out ++ [top]) op) =
        some (op :: ((top :: rest) ++ stk), out ++ [])
      rw [if_pos hlt]
      simp
    · rcases ih (out ++ [top]) op stk
        (fun u hu => hops u (List.mem_cons_of_mem top hu)) hb hop with
        ⟨popped, kept, hsplit, hadd⟩
      refine ⟨top :: popped, kept, by rw [hsplit, List.cons_append], ?_⟩
      show (if precVal top < precVal op then some (op :: top :: (rest ++ stk), out)
            else add_operator (rest ++ stk) (out ++ [top]) op) =
        some (op :: (kept ++ stk), out ++ (top :: popped))
      rw [if_neg hlt, hadd]
      simp

lemma to_rpnAux_cons_operand (e : Token) (rest stk out : List Token)
    (h : e.is_operand = true) :
    to_rpnAux (e :: rest) stk out = to_rpnAux rest stk (out ++ [e]) := by
  rcases e with ⟨k, ln, c⟩
  cases k <;> first
    | rfl
    | exact absurd h (by simp [Token.is_operand])

lemma to_rpnAux_cons_LPar (e : Token) (rest stk out : List Token)
    (h : e.kind = TokenKind.LPar) :
    to_rpnAux (e :: rest) stk out = to_rpnAux rest (e :: stk) out := by
  rcases e with ⟨k, ln, c⟩
  cases k <;> first
    | rfl
    | exact absurd h (by simp)

lemma to_rpnAux_cons_RPar (e : Token) (rest stk out stk2 out2 : List Token)
    (h : e.kind = TokenKind.RPar)
    (hp : popUntilLPar stk out = some (stk2, out2)) :
    to_rpnAux (e :: rest) stk out = to_rpnAux rest stk2 out2 := by
  rcases e with ⟨k, ln, c⟩
  cases k
  case RPar => rw [to_rpnAux, hp]
  all_goals exact nomatch h

lemma to_rpnAux_cons_operator (e : Token) (rest stk out stk2 out2 : List Token)
    (h : e.is_operator = true)
    (ha : add_operator stk out e = some (stk2, out2)) :
    to_rpnAux (e :: rest) stk out = to_rpnAux rest stk2 out2 := by
  rcases e with ⟨k, ln, c⟩
  cases k
  case Num n => exact nomatch h
  case Ident bs => exact nomatch h
  case LPar => exact nomatch h
  case RPar => exact nomatch h
  all_goals rw [to_rpnAux, ha]

/-- Processing a term from any state appends a depth-(+1) chunk to the
output and leaves the operator stack untouched. -/
def TermOK (ts : List Token) : Prop :=
  ∀ stk out rest, ∃ X,
    to_rpnAux (ts ++ rest) stk out = to_rpnAux rest stk (out ++ X) ∧
    ∀ d : Nat, runFrom X (some d) = some (d + 1)

/-- Processing an expression from a barrier state appends a chunk to the
output and pushes some operators on top of the barrier; chunk plus pushed
operators together are worth one value. -/
def ExprOK (ts : List Token) : Prop :=
  ∀ stk out rest, BarrierStk stk → ∃ stkE X,
    to_rpnAux (ts ++ rest) stk out = to_rpnAux rest (stkE ++ stk) (out ++ X) ∧
    (∀ t ∈ stkE, t.is_operator = true) ∧
    ∀ d : Nat, runFrom X (some d) = some (d + 1 + stkE.length)

theorem wf_process (b : Bool) (ts : List Token) (h : WfExpr b ts) :
    cond b (ExprOK ts) (TermOK ts) := by
  induction h with
  | operand t ht =>
    intro stk out rest
    refine ⟨[t], ?_, ?_⟩
    · rw [List.singleton_append]
      exact to_rpnAux_cons_operand t rest stk out ht
    · intro d
      rw [runFrom_cons, runStep_operand t ht]
      rfl
  | paren l r ts hl hr hts ih =>
    intro stk out rest
    have hb : BarrierStk (l :: stk) := Or.inr ⟨l, stk, rfl, hl⟩
    rcases ih (l :: stk) out (r :: rest) hb with ⟨stkE, X, heq, hops, hdep⟩
    refine ⟨X ++ stkE, ?_, ?_⟩
    · have h1 : to_rpnAux ((l :: ts ++ [r]) ++ rest) stk out =
          to_rpnAux (ts ++ (r :: rest)) (l :: stk) out := by
        rw [show (l :: ts ++ [r]) ++ rest = l :: (ts ++ (r :: rest)) by simp]
        exact to_rpnAux_cons_LPar l _ stk out hl
      have hpop : popUntilLPar (stkE ++ l :: stk) (out ++ X) =
          some (stk, (out ++ X) ++ stkE) :=
        popUntil_through stkE (out ++ X)
          (fun t ht => operator_ne_LPar t (hops t ht)) l stk hl
      have h2 : to_rpnAux (r :: rest) (stkE ++ l :: stk) (out ++ X) =
          to_rpnAux rest stk ((out ++ X) ++ stkE) :=
        to_rpnAux_cons_RPar r rest _ _ stk _ hr hpop
      rw [h1, heq, h2, List.append_assoc]
    · intro d
      rw [runFrom_append, hdep d]
      have := runFrom_ops stkE hops (d + 1) (by omega)
      rw [show d + 1 + stkE.length = (d + 1) + stkE.length from rfl]
      rw [this]
  | single ts hts ih =>
    intro stk out rest hb
    rcases ih stk out rest with ⟨X, heq, hdep⟩
    refine ⟨[], X, by simpa using heq, by simp, ?_⟩
    intro d
    rw [hdep d]
    simp
  | binop ts op t hts hop ht ihE ihT =>
    intro stk out rest hb
    rcases ihE stk out (op :: (t ++ rest)) hb with ⟨stkE, X, heq, hops, hdep⟩
    rcases add_operator_barrier stkE (out ++ X) op stk hops hb hop with
      ⟨popped, kept, hsplit, hadd⟩
    rcases ihT (op :: (kept ++ stk)) ((out ++ X) ++ popped) rest with
      ⟨XT, heqT, hdepT⟩
    have hkept : ∀ u ∈ kept, u.is_operator = true :=
      fun u hu => hops u (hsplit ▸ List.mem_append_right popped hu)
    have hpopped : ∀ u ∈ popped, u.is_operator = true :=
      fun u hu => hops u (hsplit ▸ List.mem_append_left kept hu)
    refine ⟨op :: kept, (X ++ popped) ++ XT, ?_, ?_, ?_⟩
    · have h0 : to_rpnAux ((ts ++ op :: t) ++ rest) stk out =
          to_rpnAux (ts ++ (op :: (t ++ rest))) stk out := by
        rw [List.append_assoc]
        rfl
      have h1 : to_rpnAux (op :: (t ++ rest)) (stkE ++ stk) (out ++ X) =
          to_rpnAux (t ++ rest) (op :: (kept ++ stk)) ((out ++ X) ++ popped) :=
        to_rpnAux_cons_operator op _ _ _ _ _ hop hadd
      rw [h0, heq, h1, heqT]
      have hout : ((out ++ X) ++ popped) ++ XT = out ++ ((X ++ popped) ++ XT) := by
        simp [List.append_assoc]
      have hstk : op :: (kept ++ stk) = (op :: kept) ++ stk := rfl
      rw [hout, hstk]
    · intro u hu
      rcases List.mem_cons.mp hu with rfl | hu2
      · exact hop
      · exact hkept u hu2
    · intro d
      rw [runFrom_append, runFrom_append, hdep d]
      have hlen : stkE.length = popped.length + kept.length := by
        rw [hsplit, List.length_append]
      have h1 : runFrom popped (some (d + 1 + stkE.length)) =
          some (d + 1 + kept.length) := by
        have h2 := runFrom_ops popped hpopped (d + 1 + kept.length) (by omega)
        rw [show d + 1 + stkE.length = (d + 1 + kept.length) + popped.length
            by omega]
        exact h2
      rw [h1, hdepT (d + 1 + kept.length)]
      have : d + 1 + kept.length + 1 = d + 1 + (op :: kept).length := by
        rw [List.length_cons]
        omega
      rw [this]

lemma sema_rpnAux_cons_opish (t : Token) (rest : List Token) (n : Nat)
    (h1 : t.is_operand = false) (h2 : t.is_paren = false) :
    sema_rpnAux (t :: rest) n =
      if n = 0 then .underflow 0 t.line t.column
      else if n = 1 then .underflow 1 t.line t.column
      else sema_rpnAux rest (n - 1) := by
  rcases t with ⟨k, ln, c⟩
  cases k
  case Num nn => exact nomatch h1
  case Ident bs => exact nomatch h1
  case LPar => exact nomatch h2
  case RPar => exact nomatch h2
  all_goals rfl

lemma runStep_opish (t : Token) (h1 : t.is_operand = false)
    (h2 : t.is_paren = false) (d : Nat) :
    runStep (some d) t = if d < 2 then none else some (d - 1) := by
  rcases t with ⟨k, ln, c⟩
  cases k
  case Num nn => exact nomatch h1
  case Ident bs => exact nomatch h1
  case LPar => exact nomatch h2
  case RPar => exact nomatch h2
  all_goals rfl

lemma rpn_run_opish_step (t : Token) (rest : List Token)
    (h1 : t.is_operand = false) (h2 : t.is_paren = false)
    (ih : ∀ m : Nat, sema_rpnAux rest m = .ok ↔ runFrom rest (some m) = some 1)
    (n : Nat) :
    (sema_rpnAux (t :: rest) n = .ok ↔ runFrom (t :: rest) (some n) = some 1) := by
  rw [sema_rpnAux_cons_opish t rest n h1 h2, runFrom_cons, runStep_opish t h1 h2]
  by_cases h0 : n = 0
  · subst h0
    rw [if_pos rfl, if_pos (by omega), runFrom_none]
    constructor
    · intro h; exact absurd h (by simp)
    · intro h; exact absurd h (by simp)
  · by_cases hn1 : n = 1
    · subst hn1
      rw [if_neg h0, if_pos rfl, if_pos (by omega), runFrom_none]
      constructor
      · intro h; exact absurd h (by simp)
      · intro h; exact absurd h (by simp)
    · rw [if_neg h0, if_neg hn1, if_neg (by omega)]
      exact ih (n - 1)

lemma sema_rpnAux_ok_iff_run (ts : List Token) : ∀ n : Nat,
    (sema_rpnAux ts n = .ok ↔ runFrom ts (some n) = some 1) := by
  induction ts with
  | nil =>
    intro n
    by_cases hn : n = 1 <;>
      simp [sema_rpnAux, runFrom, hn]
  | cons t rest ih =>
    intro n
    rcases t with ⟨k, ln, c⟩
    cases k
    case Num nn =>
      rw [sema_rpnAux_cons_operand (Token.mk (TokenKind.Num nn) ln c) rest n rfl,
          ih (n + 1), runFrom_cons,
          runStep_operand (Token.mk (TokenKind.Num nn) ln c) rfl]
    case Ident bs =>
      rw [sema_rpnAux_cons_operand (Token.mk (TokenKind.Ident bs) ln c) rest n rfl,
          ih (n + 1), runFrom_cons,
          runStep_operand (Token.mk (TokenKind.Ident bs) ln c) rfl]
    case LPar =>
      constructor
      · intro h2
        exact absurd (show RpnCheck.parenL ln c = .ok from h2) (by simp)
      · intro h2
        rw [runFrom_cons, show runStep (some n) (Token.mk TokenKind.LPar ln c) =
            none from rfl, runFrom_none] at h2
        exact absurd h2 (by simp)
    case RPar =>
      constructor
      · intro h2
        exact absurd (show RpnCheck.parenR ln c = .ok from h2) (by simp)
      · intro h2
        rw [runFrom_cons, show runStep (some n) (Token.mk TokenKind.RPar ln c) =
            none from rfl, runFrom_none] at h2
        exact absurd h2 (by simp)
    all_goals (refine rpn_run_opish_step _ rest ?_ ?_ ih n <;> rfl)

/-- C2, counterexample.  The sequence `( )` passes `sema_infix` (counts
match, parens are exempt from the adjacency rules), `to_rpn` reduces it to
the empty postfix sequence, and `sema_rpn` rejects the empty sequence
(zero values remain on the virtual stack). -/
theorem C2_cex :
    sema_infix [Token.new TokenKind.LPar 1 1, Token.new TokenKind.RPar 2 1] = true ∧
    to_rpn [Token.new TokenKind.LPar 1 1, Token.new TokenKind.RPar 2 1] =
      Except.ok [] ∧
    sema_rpn [] = false := by
  decide

/-- C2, amended.  For every grammatically well-formed infix expression
(operands or parenthesised subexpressions joined by binary operators,
with matched parentheses), the reducer succeeds and its postfix output is
accepted by `sema_rpn`.  Acceptance by `sema_infix` alone does not
suffice (see the counterexample `( )`). -/
theorem C2_wf_rpn_valid (e : List Token) (h : WfExpr true e) :
    ∃ out, to_rpn e = .ok out ∧ sema_rpn out = true := by
  have hE : ExprOK e := wf_process true e h
  rcases hE [] [] [] (Or.inl rfl) with ⟨stkE, X, heq, hops, hdep⟩
  rw [List.append_nil, List.append_nil, List.nil_append] at heq
  refine ⟨X ++ stkE, ?_, ?_⟩
  · rw [to_rpn, heq]
    rfl
  · rw [sema_rpn_true_iff_res]
    have hres : sema_rpnRes (X ++ stkE) = sema_rpnAux (X ++ stkE) 0 := rfl
    rw [hres, sema_rpnAux_ok_iff_run (X ++ stkE) 0, runFrom_append, hdep 0]
    have h2 := runFrom_ops stkE hops 1 (by omega)
    rw [show (0 + 1 + stkE.length : Nat) = 1 + stkE.length from by omega] at *
    exact h2

/-- Witness for C2 at the well-formed expression `1 + 2`, with an explicit
grammar derivation. -/
theorem C2_wf_rpn_valid_witness :
    ∃ out, to_rpn [Token.new (TokenKind.Num 1) 1 1, Token.new TokenKind.Add 3 1,
                   Token.new (TokenKind.Num 2) 5 1] = .ok out ∧
      sema_rpn out = true :=
  C2_wf_rpn_valid _
    (WfExpr.binop [Token.new (TokenKind.Num 1) 1 1] (Token.new TokenKind.Add 3 1)
      [Token.new (TokenKind.Num 2) 5 1]
      (WfExpr.single _ (WfExpr.operand _ rfl)) rfl
      (WfExpr.operand _ rfl))
